import Mathlib

/-! # Verification of the heightmap tile processor

Shallow embedding of `src/tools/process_heightmap.py`.

Modelling conventions:
* image samples are exact rationals (`ℚ`); the Python code computes in
  float32/float64, which we idealize as exact arithmetic;
* Python `int` is `ℕ` (or `ℤ` where the source value can go negative);
* `numpy`'s `.astype(np.uint16)` / `.astype(np.uint8)` narrowing truncates
  toward zero; on the already-clipped nonnegative values this is
  `Int.floor` followed by `Int.toNat`;
* a 2D `numpy` array is a function `ℕ → ℕ → ℚ` together with explicit
  width/height bounds; `data[y, x]` is `f x y` (first argument = column);
* dictionaries keyed by the f-string `"{tx}_{ty}"` are modelled as lists of
  records carrying the `tx`/`ty` pair;
* file writes are external: `save_tile_binary` is modelled as the byte
  list it writes.
-/

namespace Heightmap

/-- `TILE_SIZE = 512` (line 56): pixels per tile at LOD 0. -/
def TILE_SIZE : ℕ := 512

/-- `MAX_LOD_LEVELS = 4` (line 57): LOD levels 0-3. -/
def MAX_LOD_LEVELS : ℕ := 4

/-- `math.ceil(a / b)` on naturals.  All divisors used by the script are
powers of two, so the Python float division is exact and its ceiling equals
this integer ceiling division. -/
def ceilDivNat (a b : ℕ) : ℕ := (a + b - 1) / b

/-- Lines 234-237: one sample's 16-bit code.
`normalized = (v - min_value) / value_range` and then
`(normalized * 65535.0).clip(0, 65535).astype(np.uint16)`;
`np.clip(x, 0, 65535)` is `min (max x 0) 65535` and the `uint16` cast
truncates the (nonnegative) result. -/
def quantize (min_value value_range v : ℚ) : ℕ :=
  (⌊min (max ((v - min_value) / value_range * 65535) 0) 65535⌋).toNat

/-- Lines 231-237 applied to a whole tile region: quantized codes of
`data[src_y : src_y + tile_h, src_x : src_x + tile_w]`, flattened
row-major exactly as the `uint16` array is laid out. -/
def tilePayload (f : ℕ → ℕ → ℚ) (src_x src_y tile_w tile_h : ℕ)
    (min_value value_range : ℚ) : List ℕ :=
  (List.range tile_h).flatMap fun r =>
    (List.range tile_w).map fun c => quantize min_value value_range (f (src_x + c) (src_y + r))

/-- One entry of `metadata["tiles"]` (lines 297-303) together with the tile
payload that `save_tile_binary` wrote for it; the dict key `"{tx}_{ty}"` is
kept as the `(tx, ty)` pair. -/
structure FlatTile where
  tx : ℕ
  ty : ℕ
  width : ℕ
  height : ℕ
  payload : List ℕ
  src_x : ℕ
  src_y : ℕ
  deriving DecidableEq

/-- One entry of `metadata["lod_tiles"][str(lod)]` (lines 250-259) together
with its payload.  `src_w`/`src_h` are `ℤ`: the source computes them with
Python integer subtraction and records them without a sign check. -/
structure LodTile where
  tx : ℕ
  ty : ℕ
  width : ℕ
  height : ℕ
  payload : List ℕ
  src_x : ℕ
  src_y : ℕ
  src_w : ℤ
  src_h : ℤ
  lod : ℕ
  deriving DecidableEq

/-- Line 204: `tile_size_at_lod = max(TILE_SIZE // scale, 32)` with
`scale = 1 << lod`. -/
def tileSizeAtLod (lod : ℕ) : ℕ := max (TILE_SIZE / 2 ^ lod) 32

/-- The tile `process_lod_level_fast` builds for grid index `(tx, ty)`
(lines 221-259): the region is cut from the LOD image with the per-level
edge, while the provenance coordinates use the base `TILE_SIZE` and the
level's `scale = 2 ^ lod`. -/
def lodTileAt (f : ℕ → ℕ → ℚ) (lod lod_w lod_h orig_w orig_h : ℕ)
    (min_value value_range : ℚ) (tx ty : ℕ) : LodTile :=
  let ts := tileSizeAtLod lod
  let src_x := tx * ts
  let src_y := ty * ts
  let tile_w := min ts (lod_w - src_x)
  let tile_h := min ts (lod_h - src_y)
  { tx := tx, ty := ty, width := tile_w, height := tile_h,
    payload := tilePayload f src_x src_y tile_w tile_h min_value value_range,
    src_x := tx * TILE_SIZE, src_y := ty * TILE_SIZE,
    src_w := min ((TILE_SIZE : ℤ) * 2 ^ lod) ((orig_w : ℤ) - (tx * TILE_SIZE : ℕ)),
    src_h := min ((TILE_SIZE : ℤ) * 2 ^ lod) ((orig_h : ℤ) - (ty * TILE_SIZE : ℕ)),
    lod := lod }

/-- `process_lod_level_fast` (lines 196-263): loop over the effective grid
`ceil(lod_w / ts) × ceil(lod_h / ts)`, skipping regions with
non-positive width or height (line 227; in `ℕ` the Python test
`tile_w <= 0` is `tile_w = 0`, the two agreeing because `ts > 0`). -/
def processLodLevelFast (f : ℕ → ℕ → ℚ) (lod lod_w lod_h orig_w orig_h : ℕ)
    (min_value value_range : ℚ) : List LodTile :=
  (List.range (ceilDivNat lod_h (tileSizeAtLod lod))).flatMap fun ty =>
    (List.range (ceilDivNat lod_w (tileSizeAtLod lod))).filterMap fun tx =>
      if min (tileSizeAtLod lod) (lod_w - tx * tileSizeAtLod lod) = 0 ∨
         min (tileSizeAtLod lod) (lod_h - ty * tileSizeAtLod lod) = 0 then none
      else some (lodTileAt f lod lod_w lod_h orig_w orig_h min_value value_range tx ty)

/-- The tile `process_flat_tiles` builds for grid index `(tx, ty)`
(lines 277-303). -/
def flatTileAt (f : ℕ → ℕ → ℚ) (width height : ℕ) (min_value value_range : ℚ)
    (tx ty : ℕ) : FlatTile :=
  let src_x := tx * TILE_SIZE
  let src_y := ty * TILE_SIZE
  let tile_w := min TILE_SIZE (width - src_x)
  let tile_h := min TILE_SIZE (height - src_y)
  { tx := tx, ty := ty, width := tile_w, height := tile_h,
    payload := tilePayload f src_x src_y tile_w tile_h min_value value_range,
    src_x := src_x, src_y := src_y }

/-- `process_flat_tiles` (lines 266-307): loop over the caller-supplied
`tiles_x × tiles_y` grid with the base `TILE_SIZE`; no skip test. -/
def processFlatTiles (f : ℕ → ℕ → ℚ) (tiles_x tiles_y width height : ℕ)
    (min_value value_range : ℚ) : List FlatTile :=
  (List.range tiles_y).flatMap fun ty =>
    (List.range tiles_x).map fun tx => flatTileAt f width height min_value value_range tx ty

/-- `struct.pack('<H', n)` for `n < 65536`: the two little-endian bytes.
The `% 256` on the high byte is the `uint16` narrowing. -/
def le16 (n : ℕ) : List ℕ := [n % 256, n / 256 % 256]

/-- `save_tile_binary` (lines 310-316): the byte sequence written, i.e.
`struct.pack('<HH', width, height)` followed by the row-major `uint16`
codes via `data.tobytes()` (little-endian on the target platforms). -/
def saveTileBinary (width height : ℕ) (codes : List ℕ) : List ℕ :=
  le16 width ++ le16 height ++ codes.flatMap le16

/-- All samples of the field, row-major, as `np.array(img)` lays them out. -/
def samplesList (f : ℕ → ℕ → ℚ) (width height : ℕ) : List ℚ :=
  (List.range height).flatMap fun y => (List.range width).map fun x => f x y

/-- Line 90: `min_value = float(np.min(data))` (a fold of `min` over the
samples; the initial element `f 0 0` belongs to the array whenever it is
nonempty, which `np.min` requires). -/
def fieldMin (f : ℕ → ℕ → ℚ) (width height : ℕ) : ℚ :=
  (samplesList f width height).foldl min (f 0 0)

/-- Line 91: `max_value = float(np.max(data))`. -/
def fieldMax (f : ℕ → ℕ → ℚ) (width height : ℕ) : ℚ :=
  (samplesList f width height).foldl max (f 0 0)

/-- Line 126: `value_range = max_value - min_value if max_value > min_value
else 1.0`. -/
def valueRange (min_value max_value : ℚ) : ℚ :=
  if max_value > min_value then max_value - min_value else 1

/-- Lines 139-141: the LOD image handed to the tiler.  The external PIL
resize produces a `uint8` image (`resized x y`, one byte per pixel);
the script then divides by `255.0`. -/
def lodImageField (resized : ℕ → ℕ → Fin 256) : ℕ → ℕ → ℚ :=
  fun x y => ((resized x y : ℕ) : ℚ) / 255

/-- `(data * 255).astype(np.uint8)` at one sample (line 139): the value fed
to the resizer; truncation then wrapping to a byte. -/
def toUint8 (v : ℚ) : Fin 256 := ⟨(⌊v * 255⌋).toNat % 256, Nat.mod_lt _ (by norm_num)⟩

/-- The `tile_index.json` document (lines 106-120 as initialized, after the
tile loops have filled `tiles` / `lod_tiles`). -/
structure TileIndexMeta where
  version : ℕ
  source_width : ℕ
  source_height : ℕ
  tile_size : ℕ
  tiles_x : ℕ
  tiles_y : ℕ
  min_value : ℚ
  max_value : ℚ
  mariana_depth : ℚ
  everest_height : ℚ
  lod_levels : ℕ
  tiles : List FlatTile
  lod_tiles : List (ℕ × List LodTile)

/-- The legacy `tileset.json` document (lines 165-177). -/
structure TilesetMeta where
  version : ℕ
  source_width : ℕ
  source_height : ℕ
  tile_size : ℕ
  tiles_x : ℕ
  tiles_y : ℕ
  min_value : ℚ
  max_value : ℚ
  mariana_depth : ℚ
  everest_height : ℚ
  tiles : List FlatTile

/-- `process_heightmap` (lines 60-181), with the external collaborators as
parameters: `f` is the decoded base field (`np.array(img) / 255.0`) of size
`width × height`, and `resized lod` is the `uint8` image PIL's Lanczos
resize returns for level `lod` (its dimensions are
`max(width >> lod, 1) × max(height >> lod, 1)`, lines 134-136).
Returns the pair (tile_index.json, tileset.json). -/
def processHeightmap (f : ℕ → ℕ → ℚ) (width height : ℕ)
    (resized : ℕ → ℕ → ℕ → Fin 256) (generate_lod : Bool) :
    TileIndexMeta × TilesetMeta :=
  let min_value := fieldMin f width height
  let max_value := fieldMax f width height
  let tiles_x := ceilDivNat width TILE_SIZE
  let tiles_y := ceilDivNat height TILE_SIZE
  let value_range := valueRange min_value max_value
  let levels := if generate_lod then MAX_LOD_LEVELS else 1
  let lodImage : ℕ → (ℕ → ℕ → ℚ) := fun lod =>
    if lod = 0 then f else lodImageField (resized lod)
  let lodW : ℕ → ℕ := fun lod => if lod = 0 then width else max (width / 2 ^ lod) 1
  let lodH : ℕ → ℕ := fun lod => if lod = 0 then height else max (height / 2 ^ lod) 1
  let lod_tiles := (List.range levels).map fun lod =>
    (lod, processLodLevelFast (lodImage lod) lod (lodW lod) (lodH lod)
            width height min_value value_range)
  let tiles := processFlatTiles f tiles_x tiles_y width height min_value value_range
  ({ version := 2, source_width := width, source_height := height,
     tile_size := TILE_SIZE, tiles_x := tiles_x, tiles_y := tiles_y,
     min_value := min_value, max_value := max_value,
     mariana_depth := -10994, everest_height := 8849,
     lod_levels := levels, tiles := tiles, lod_tiles := lod_tiles },
   { version := 1, source_width := width, source_height := height,
     tile_size := TILE_SIZE, tiles_x := tiles_x, tiles_y := tiles_y,
     min_value := min_value, max_value := max_value,
     mariana_depth := -10994, everest_height := 8849, tiles := tiles })

/-- A tile region cut by the tiling loop: `(src_x, src_y, tile_w, tile_h)`. -/
structure Region where
  sx : ℕ
  sy : ℕ
  tw : ℕ
  th : ℕ
  deriving DecidableEq

/-- The tiling loop of `process_lod_level_fast` (lines 216-231), parametric
in the tile edge `ts`; `process_flat_tiles` (lines 273-284) runs the same
loop with `ts = TILE_SIZE` (and no skip test, which never fires there). -/
def tilerRegions (W H ts : ℕ) : List Region :=
  (List.range (ceilDivNat H ts)).flatMap fun ty =>
    (List.range (ceilDivNat W ts)).filterMap fun tx =>
      if min ts (W - tx * ts) = 0 ∨ min ts (H - ty * ts) = 0 then none
      else some ⟨tx * ts, ty * ts, min ts (W - tx * ts), min ts (H - ty * ts)⟩

/-- Sample `(x, y)` lies in the region's footprint. -/
def regionCovers (r : Region) (x y : ℕ) : Prop :=
  r.sx ≤ x ∧ x < r.sx + r.tw ∧ r.sy ≤ y ∧ y < r.sy + r.th

/-- Projection of a LOD tile onto the fields a flat tile records. -/
def lodToFlat (t : LodTile) : FlatTile :=
  { tx := t.tx, ty := t.ty, width := t.width, height := t.height,
    payload := t.payload, src_x := t.src_x, src_y := t.src_y }

/-- The quantizer exactly as claim C1 words it: `round` of the clamped
normalized value (stated from the spec, to be compared with `quantize`). -/
def quantizeClaim (min_value max_value v : ℚ) : ℤ :=
  round (min (max ((v - min_value) / (max_value - min_value)) 0) 1 * 65535)

/-- The provenance abscissa exactly as claim C2 words it:
`sourceX = tx * T * 2 ^ L` (stated from the spec, to be compared with the
recorded `src_x`). -/
def srcXClaim (tx lod : ℕ) : ℕ := tx * TILE_SIZE * 2 ^ lod

/-! ## Helper lemmas -/

/-- A `filterMap` whose function never skips on the list at hand is a `map`. -/
theorem filterMap_eq_map_of_forall {α β : Type} (l : List α) (F : α → Option β)
    (G : α → β) (h : ∀ a ∈ l, F a = some (G a)) : l.filterMap F = l.map G := by
  induction l with
  | nil => rfl
  | cons a tl ih =>
    simp only [List.filterMap_cons, h a (List.mem_cons_self a tl), List.map_cons]
    exact congrArg _ (ih fun b hb => h b (List.mem_cons_of_mem _ hb))

/-- Length of a `flatMap` whose pieces all have length `k`. -/
theorem length_flatMap_uniform {α β : Type} (l : List α) (F : α → List β) (k : ℕ)
    (h : ∀ a ∈ l, (F a).length = k) : (l.flatMap F).length = l.length * k := by
  induction l with
  | nil => simp
  | cons a tl ih =>
    have ha := h a (List.mem_cons_self a tl)
    have htl := ih fun b hb => h b (List.mem_cons_of_mem _ hb)
    simp only [List.flatMap_cons, List.length_append, ha, htl, List.length_cons]
    ring

/-- Indexing into a `flatMap` whose pieces all have length `k`: position
`i * k + j` lands at offset `j` of piece `i`. -/
theorem getElem?_flatMap_uniform {α β : Type} (l : List α) (F : α → List β) (k : ℕ)
    (h : ∀ a ∈ l, (F a).length = k) (i j : ℕ) (hi : i < l.length) (hj : j < k) :
    (l.flatMap F)[i * k + j]? = (F (l.get ⟨i, hi⟩))[j]? := by
  induction l generalizing i with
  | nil => exact absurd hi (by simp)
  | cons a tl ih =>
    rw [List.flatMap_cons]
    cases i with
    | zero =>
      have hja : j < (F a).length := by rw [h a (List.mem_cons_self a tl)]; exact hj
      rw [Nat.zero_mul, Nat.zero_add, List.getElem?_append, if_pos hja]
      rfl
    | succ i =>
      have hlen : (F a).length = k := h a (List.mem_cons_self a tl)
      have e : (i + 1) * k = i * k + k := by ring
      have hle : (F a).length ≤ (i + 1) * k + j := by rw [hlen, e]; omega
      rw [List.getElem?_append_right hle]
      have harith : (i + 1) * k + j - (F a).length = i * k + j := by rw [hlen, e]; omega
      rw [harith]
      exact ih (fun b hb => h b (List.mem_cons_of_mem _ hb)) i (by simpa using hi)

/-- The ceiling grid covers the field: `W ≤ ceil(W / ts) * ts`. -/
theorem le_ceilDivNat_mul (W ts : ℕ) (hts : 0 < ts) : W ≤ ceilDivNat W ts * ts := by
  unfold ceilDivNat
  have h1 := Nat.div_add_mod (W + ts - 1) ts
  have h2 : (W + ts - 1) % ts < ts := Nat.mod_lt _ hts
  rw [Nat.mul_comm]
  revert h1 h2
  generalize ts * ((W + ts - 1) / ts) = A
  intro h1 h2
  omega

/-- The ceiling grid is minimal: every in-range tile index starts strictly
inside the field. -/
theorem mul_lt_of_lt_ceilDivNat {W ts tx : ℕ} (hts : 0 < ts)
    (h : tx < ceilDivNat W ts) : tx * ts < W := by
  unfold ceilDivNat at h
  have h2 : (tx + 1) * ts ≤ W + ts - 1 :=
    (Nat.le_div_iff_mul_le hts).mp (Nat.succ_le_of_lt h)
  have e : (tx + 1) * ts = tx * ts + ts := by ring
  rw [e] at h2
  revert h2
  generalize tx * ts = A
  intro h2
  omega

/-- Any in-field sample index maps into the grid. -/
theorem div_lt_ceilDivNat {W ts x : ℕ} (hts : 0 < ts) (hx : x < W) :
    x / ts < ceilDivNat W ts :=
  (Nat.div_lt_iff_lt_mul hts).mpr (lt_of_lt_of_le hx (le_ceilDivNat_mul W ts hts))

/-- `x` lies below the end of its own tile row/column. -/
theorem lt_div_mul_add {x ts : ℕ} (hts : 0 < ts) : x < x / ts * ts + ts := by
  have h1 := Nat.div_add_mod x ts
  have h2 : x % ts < ts := Nat.mod_lt _ hts
  rw [Nat.mul_comm]
  revert h1 h2
  generalize ts * (x / ts) = A
  intro h1 h2
  omega

/-- `tileSizeAtLod` is always positive (the `32` clamp). -/
theorem tileSizeAtLod_pos (lod : ℕ) : 0 < tileSizeAtLod lod :=
  lt_of_lt_of_le (by norm_num) (le_max_right _ 32)

/-- Clipping before or after the `× 65535` scaling is the same. -/
theorem quantize_eq_floor_clamp (mn vr v : ℚ) :
    quantize mn vr v = (⌊min (max ((v - mn) / vr) 0) 1 * 65535⌋).toNat := by
  unfold quantize
  have h : (0 : ℚ) ≤ 65535 := by norm_num
  rw [min_mul_of_nonneg _ _ h, max_mul_of_nonneg _ _ h, zero_mul, one_mul]

/-- A sample at or below the recorded minimum quantizes to code `0` when the
degenerate divisor `1` is in effect. -/
theorem quantize_zero_of_le {mn v : ℚ} (h : v ≤ mn) : quantize mn 1 v = 0 := by
  unfold quantize
  have h1 : (v - mn) / 1 * 65535 ≤ 0 := by
    rw [div_one]
    nlinarith
  rw [max_eq_right h1, min_eq_left (by norm_num : (0:ℚ) ≤ 65535)]
  norm_num

/-- Membership in the flat tile list. -/
theorem mem_processFlatTiles {f : ℕ → ℕ → ℚ} {tiles_x tiles_y W H : ℕ}
    {mn vr : ℚ} {t : FlatTile} :
    t ∈ processFlatTiles f tiles_x tiles_y W H mn vr ↔
    ∃ tx ty, tx < tiles_x ∧ ty < tiles_y ∧ t = flatTileAt f W H mn vr tx ty := by
  unfold processFlatTiles
  constructor
  · intro hmem
    rcases List.mem_flatMap.mp hmem with ⟨ty, hty, hrow⟩
    rcases List.mem_map.mp hrow with ⟨tx, htx, heq⟩
    exact ⟨tx, ty, List.mem_range.mp htx, List.mem_range.mp hty, heq.symm⟩
  · rintro ⟨tx, ty, htx, hty, rfl⟩
    exact List.mem_flatMap.mpr ⟨ty, List.mem_range.mpr hty,
      List.mem_map.mpr ⟨tx, List.mem_range.mpr htx, rfl⟩⟩

/-- Membership in a LOD level's tile list. -/
theorem mem_processLodLevelFast {f : ℕ → ℕ → ℚ} {lod lw lh ow oh : ℕ}
    {mn vr : ℚ} {t : LodTile} :
    t ∈ processLodLevelFast f lod lw lh ow oh mn vr ↔
    ∃ tx ty, tx < ceilDivNat lw (tileSizeAtLod lod) ∧
      ty < ceilDivNat lh (tileSizeAtLod lod) ∧
      min (tileSizeAtLod lod) (lw - tx * tileSizeAtLod lod) ≠ 0 ∧
      min (tileSizeAtLod lod) (lh - ty * tileSizeAtLod lod) ≠ 0 ∧
      t = lodTileAt f lod lw lh ow oh mn vr tx ty := by
  unfold processLodLevelFast
  constructor
  · intro hmem
    rcases List.mem_flatMap.mp hmem with ⟨ty, hty, hrow⟩
    rcases List.mem_filterMap.mp hrow with ⟨tx, htx, heq⟩
    by_cases hc : min (tileSizeAtLod lod) (lw - tx * tileSizeAtLod lod) = 0 ∨
        min (tileSizeAtLod lod) (lh - ty * tileSizeAtLod lod) = 0
    · rw [if_pos hc] at heq
      exact absurd heq (by simp)
    · rw [if_neg hc] at heq
      push_neg at hc
      exact ⟨tx, ty, List.mem_range.mp htx, List.mem_range.mp hty, hc.1, hc.2,
        (Option.some_inj.mp heq).symm⟩
  · rintro ⟨tx, ty, htx, hty, hw, hh, rfl⟩
    refine List.mem_flatMap.mpr ⟨ty, List.mem_range.mpr hty,
      List.mem_filterMap.mpr ⟨tx, List.mem_range.mpr htx, ?_⟩⟩
    rw [if_neg (by tauto)]

/-- Membership in the parametric tiler's region list. -/
theorem mem_tilerRegions {W H ts : ℕ} {r : Region} :
    r ∈ tilerRegions W H ts ↔
    ∃ tx ty, tx < ceilDivNat W ts ∧ ty < ceilDivNat H ts ∧
      min ts (W - tx * ts) ≠ 0 ∧ min ts (H - ty * ts) ≠ 0 ∧
      r = ⟨tx * ts, ty * ts, min ts (W - tx * ts), min ts (H - ty * ts)⟩ := by
  unfold tilerRegions
  constructor
  · intro hmem
    rcases List.mem_flatMap.mp hmem with ⟨ty, hty, hrow⟩
    rcases List.mem_filterMap.mp hrow with ⟨tx, htx, heq⟩
    by_cases hc : min ts (W - tx * ts) = 0 ∨ min ts (H - ty * ts) = 0
    · rw [if_pos hc] at heq
      exact absurd heq (by simp)
    · rw [if_neg hc] at heq
      push_neg at hc
      exact ⟨tx, ty, List.mem_range.mp htx, List.mem_range.mp hty, hc.1, hc.2,
        (Option.some_inj.mp heq).symm⟩
  · rintro ⟨tx, ty, htx, hty, hw, hh, rfl⟩
    refine List.mem_flatMap.mpr ⟨ty, List.mem_range.mpr hty,
      List.mem_filterMap.mpr ⟨tx, List.mem_range.mpr htx, ?_⟩⟩
    rw [if_neg (by tauto)]

/-- Row-major indexing into a tile payload. -/
theorem tilePayload_getElem (f : ℕ → ℕ → ℚ) (sx sy tw th : ℕ) (mn vr : ℚ)
    (r c : ℕ) (hr : r < th) (hc : c < tw) :
    (tilePayload f sx sy tw th mn vr)[r * tw + c]? =
      some (quantize mn vr (f (sx + c) (sy + r))) := by
  unfold tilePayload
  rw [getElem?_flatMap_uniform (List.range th)
      (fun r => (List.range tw).map fun c => quantize mn vr (f (sx + c) (sy + r))) tw
      (fun a _ => by simp) r c (by simpa using hr) hc]
  rw [List.get_range]
  rw [List.getElem?_map, List.getElem?_range hc]
  rfl

/-- Every payload entry is the quantization of some field sample. -/
theorem mem_tilePayload {f : ℕ → ℕ → ℚ} {sx sy tw th : ℕ} {mn vr : ℚ} {code : ℕ}
    (h : code ∈ tilePayload f sx sy tw th mn vr) :
    ∃ x y, code = quantize mn vr (f x y) := by
  unfold tilePayload at h
  simp only [List.mem_flatMap, List.mem_map, List.mem_range] at h
  obtain ⟨r, _, c, _, rfl⟩ := h
  exact ⟨sx + c, sy + r, rfl⟩

/-- Folding `min` over a constant list returns the constant. -/
theorem foldl_min_const {c : ℚ} (l : List ℚ) (h : ∀ a ∈ l, a = c) :
    l.foldl min c = c := by
  induction l with
  | nil => rfl
  | cons a tl ih =>
    rw [List.foldl_cons, h a (List.mem_cons_self a tl), min_self]
    exact ih fun b hb => h b (List.mem_cons_of_mem _ hb)

/-- Folding `max` over a constant list returns the constant. -/
theorem foldl_max_const {c : ℚ} (l : List ℚ) (h : ∀ a ∈ l, a = c) :
    l.foldl max c = c := by
  induction l with
  | nil => rfl
  | cons a tl ih =>
    rw [List.foldl_cons, h a (List.mem_cons_self a tl), max_self]
    exact ih fun b hb => h b (List.mem_cons_of_mem _ hb)

/-- `np.min` of a constant field is the constant. -/
theorem fieldMin_const (c : ℚ) (W H : ℕ) : fieldMin (fun _ _ => c) W H = c := by
  unfold fieldMin samplesList
  refine foldl_min_const _ fun a ha => ?_
  simp only [List.mem_flatMap, List.mem_map, List.mem_range] at ha
  obtain ⟨y, _, x, _, rfl⟩ := ha
  rfl

/-- `np.max` of a constant field is the constant. -/
theorem fieldMax_const (c : ℚ) (W H : ℕ) : fieldMax (fun _ _ => c) W H = c := by
  unfold fieldMax samplesList
  refine foldl_max_const _ fun a ha => ?_
  simp only [List.mem_flatMap, List.mem_map, List.mem_range] at ha
  obtain ⟨y, _, x, _, rfl⟩ := ha
  rfl

/-- `filterMap` respects pointwise equality on the list's members. -/
theorem filterMap_congr_mem {α β : Type} (l : List α) (F G : α → Option β)
    (h : ∀ a ∈ l, F a = G a) : l.filterMap F = l.filterMap G := by
  induction l with
  | nil => rfl
  | cons a tl ih =>
    rw [List.filterMap_cons, List.filterMap_cons, h a (List.mem_cons_self a tl),
      ih fun b hb => h b (List.mem_cons_of_mem _ hb)]

/-- `flatMap` respects pointwise equality on the list's members. -/
theorem flatMap_congr_mem {α β : Type} (l : List α) (F G : α → List β)
    (h : ∀ a ∈ l, F a = G a) : l.flatMap F = l.flatMap G := by
  induction l with
  | nil => rfl
  | cons a tl ih =>
    rw [List.flatMap_cons, List.flatMap_cons, h a (List.mem_cons_self a tl),
      ih fun b hb => h b (List.mem_cons_of_mem _ hb)]

/-! ## Claim theorems -/

/-- C10: both emitted metadata documents (the version-2 tile index and the
version-1 legacy tileset) carry the constants `mariana_depth = -10994.0` and
`everest_height = 8849.0`, independent of every input. -/
theorem c10_metadata_constants (f : ℕ → ℕ → ℚ) (W H : ℕ)
    (resized : ℕ → ℕ → ℕ → Fin 256) (generate_lod : Bool) :
    (processHeightmap f W H resized generate_lod).1.mariana_depth = -10994 ∧
    (processHeightmap f W H resized generate_lod).1.everest_height = 8849 ∧
    (processHeightmap f W H resized generate_lod).2.mariana_depth = -10994 ∧
    (processHeightmap f W H resized generate_lod).2.everest_height = 8849 :=
  ⟨rfl, rfl, rfl, rfl⟩

/-- C9: every LOD level `L ≥ 1` is tiled from the field
`lodImageField (resized L)`, i.e. the externally resized 8-bit image
divided by 255; and every sample of such a field is `k / 255` for a byte
`k ≤ 255`, hence lies in `[0, 1]` and is an exact multiple of `1 / 255`
(at most 8 bits of precision despite the 16-bit tile format). -/
theorem c9_lod_field_precision (f : ℕ → ℕ → ℚ) (W H : ℕ)
    (resized : ℕ → ℕ → ℕ → Fin 256) (g : Bool) :
    (∀ p ∈ (processHeightmap f W H resized g).1.lod_tiles, p.1 ≠ 0 →
      p.2 = processLodLevelFast (lodImageField (resized p.1)) p.1
        (max (W / 2 ^ p.1) 1) (max (H / 2 ^ p.1) 1) W H
        (fieldMin f W H) (valueRange (fieldMin f W H) (fieldMax f W H))) ∧
    (∀ (r : ℕ → ℕ → Fin 256) (x y : ℕ),
      ∃ k : ℕ, k ≤ 255 ∧ lodImageField r x y = (k : ℚ) / 255 ∧
        0 ≤ lodImageField r x y ∧ lodImageField r x y ≤ 1) := by
  constructor
  · intro p hp hne
    have hp' : p ∈ (List.range (if g then MAX_LOD_LEVELS else 1)).map (fun lod =>
        (lod, processLodLevelFast
          (if lod = 0 then f else lodImageField (resized lod)) lod
          (if lod = 0 then W else max (W / 2 ^ lod) 1)
          (if lod = 0 then H else max (H / 2 ^ lod) 1)
          W H (fieldMin f W H)
          (valueRange (fieldMin f W H) (fieldMax f W H)))) := hp
    rcases List.mem_map.mp hp' with ⟨lod, hlod, rfl⟩
    have hne' : lod ≠ 0 := hne
    show processLodLevelFast _ lod _ _ W H _ _ = _
    rw [if_neg hne', if_neg hne', if_neg hne']
  · intro r x y
    refine ⟨r x y, Nat.lt_succ_iff.mp (r x y).isLt, rfl, ?_, ?_⟩
    · unfold lodImageField
      positivity
    · unfold lodImageField
      rw [div_le_one (by norm_num)]
      exact_mod_cast Nat.lt_succ_iff.mp (r x y).isLt

/-- Witness for C9 on the 1 × 1 zero field with an all-zero resizer. -/
theorem c9_lod_field_precision_witness :
    ∃ k : ℕ, k ≤ 255 ∧ lodImageField (fun _ _ => 0) 0 0 = (k : ℚ) / 255 ∧
      0 ≤ lodImageField (fun _ _ => 0) 0 0 ∧ lodImageField (fun _ _ => 0) 0 0 ≤ 1 :=
  (c9_lod_field_precision (fun _ _ => 0) 1 1 (fun _ _ _ => 0) false).2
    (fun _ _ => 0) 0 0

/-- C4: the encoded tile record is the two little-endian `uint16` header
words `w`, `h` followed by the `w·h` little-endian `uint16` codes in
row-major order, for a total of `4 + 2·w·h` bytes. -/
theorem c4_binary_format (w h : ℕ) (codes : List ℕ)
    (hw : w ≤ 65535) (hh : h ≤ 65535) (hcodes : ∀ c ∈ codes, c ≤ 65535)
    (hlen : codes.length = w * h) :
    (saveTileBinary w h codes).length = 4 + 2 * (w * h) ∧
    (saveTileBinary w h codes)[0]? = some (w % 256) ∧
    (saveTileBinary w h codes)[1]? = some (w / 256) ∧
    (saveTileBinary w h codes)[2]? = some (h % 256) ∧
    (saveTileBinary w h codes)[3]? = some (h / 256) ∧
    ∀ i, (hi : i < w * h) →
      (saveTileBinary w h codes)[4 + 2 * i]? = some (codes.get ⟨i, by omega⟩ % 256) ∧
      (saveTileBinary w h codes)[4 + 2 * i + 1]? = some (codes.get ⟨i, by omega⟩ / 256) := by
  have hflat : ∀ a ∈ codes, (le16 a).length = 2 := fun a _ => rfl
  have l2w : (le16 w).length = 2 := rfl
  have l2h : (le16 h).length = 2 := rfl
  have hwd : w / 256 < 256 := by
    have : w / 256 ≤ 65535 / 256 := Nat.div_le_div_right hw
    omega
  have hhd : h / 256 < 256 := by
    have : h / 256 ≤ 65535 / 256 := Nat.div_le_div_right hh
    omega
  refine ⟨?_, ?_, ?_, ?_, ?_, ?_⟩
  · show (le16 w ++ (le16 h ++ codes.flatMap le16)).length = _
    rw [List.length_append, List.length_append,
      length_flatMap_uniform codes le16 2 hflat, hlen, l2w, l2h]
    ring
  · show (le16 w ++ (le16 h ++ codes.flatMap le16))[0]? = _
    simp [le16]
  · show (le16 w ++ (le16 h ++ codes.flatMap le16))[1]? = _
    simp [le16, Nat.mod_eq_of_lt hwd]
  · show (le16 w ++ (le16 h ++ codes.flatMap le16))[2]? = _
    simp [le16]
  · show (le16 w ++ (le16 h ++ codes.flatMap le16))[3]? = _
    simp [le16, Nat.mod_eq_of_lt hhd]
  · intro i hi
    have hic : i < codes.length := by omega
    have hcv := hcodes _ (codes.get_mem i hic)
    have hcd : codes.get ⟨i, hic⟩ / 256 < 256 := by
      have : codes.get ⟨i, hic⟩ / 256 ≤ 65535 / 256 := Nat.div_le_div_right hcv
      omega
    constructor
    · show (le16 w ++ (le16 h ++ codes.flatMap le16))[4 + 2 * i]? = _
      rw [List.getElem?_append_right (by rw [l2w]; omega), l2w,
        List.getElem?_append_right (by rw [l2h]; omega), l2h]
      have e2 : 4 + 2 * i - 2 - 2 = i * 2 + 0 := by omega
      rw [e2, getElem?_flatMap_uniform codes le16 2 hflat i 0 hic (by norm_num)]
      simp [le16]
    · show (le16 w ++ (le16 h ++ codes.flatMap le16))[4 + 2 * i + 1]? = _
      rw [List.getElem?_append_right (by rw [l2w]; omega), l2w,
        List.getElem?_append_right (by rw [l2h]; omega), l2h]
      have e2 : 4 + 2 * i + 1 - 2 - 2 = i * 2 + 1 := by omega
      rw [e2, getElem?_flatMap_uniform codes le16 2 hflat i 1 hic (by norm_num)]
      have hcd2 : codes[i] / 256 < 256 := by simpa using hcd
      simp [le16, Nat.mod_eq_of_lt hcd2]

/-- Witness for C4 at `w = 1`, `h = 1`, `codes = [300]`. -/
theorem c4_binary_format_witness :
    (1 ≤ 65535) ∧ ([300].length = 1 * 1) ∧
    (saveTileBinary 1 1 [300]).length = 4 + 2 * (1 * 1) :=
  ⟨by norm_num, by decide,
    (c4_binary_format 1 1 [300] (by norm_num) (by norm_num)
      (by intro c hc; rw [List.mem_singleton] at hc; omega) (by decide)).1⟩

/-- C3: the tiler cuts a `W × H` field with edge `ts` into exactly
`ceil(W/ts) · ceil(H/ts)` regions; region `(tx, ty)` spans columns
`[tx·ts, min((tx+1)·ts, W))` and rows `[ty·ts, min((ty+1)·ts, H))`; and
every sample of `[0, W) × [0, H)` lies in exactly one region (no gaps, no
overlaps, no padding). -/
theorem c3_tiler_grid_coverage (W H ts : ℕ) (hW : 0 < W) (hH : 0 < H)
    (hts : 0 < ts) :
    (tilerRegions W H ts).length = ceilDivNat W ts * ceilDivNat H ts ∧
    (∀ r ∈ tilerRegions W H ts, ∃ tx ty,
        r.sx = tx * ts ∧ r.sy = ty * ts ∧
        r.sx + r.tw = min ((tx + 1) * ts) W ∧ r.sy + r.th = min ((ty + 1) * ts) H) ∧
    (∀ x y, x < W → y < H → ∃! r, r ∈ tilerRegions W H ts ∧ regionCovers r x y) ∧
    (∀ (f : ℕ → ℕ → ℚ) (lod ow oh : ℕ) (mn vr : ℚ), tileSizeAtLod lod = ts →
      (processLodLevelFast f lod W H ow oh mn vr).map
        (fun t => Region.mk (t.tx * ts) (t.ty * ts) t.width t.height) =
        tilerRegions W H ts) ∧
    (∀ (f : ℕ → ℕ → ℚ) (mn vr : ℚ), ts = TILE_SIZE →
      (processFlatTiles f (ceilDivNat W ts) (ceilDivNat H ts) W H mn vr).map
        (fun t => Region.mk t.src_x t.src_y t.width t.height) =
        tilerRegions W H ts) := by
  have hcond : ∀ tx ty, tx < ceilDivNat W ts → ty < ceilDivNat H ts →
      ¬(min ts (W - tx * ts) = 0 ∨ min ts (H - ty * ts) = 0) := by
    intro tx ty htx hty
    have h1 : tx * ts < W := mul_lt_of_lt_ceilDivNat hts htx
    have h2 : ty * ts < H := mul_lt_of_lt_ceilDivNat hts hty
    push_neg
    revert h1 h2
    generalize tx * ts = A
    generalize ty * ts = B
    intro h1 h2
    omega
  refine ⟨?_, ?_, ?_, ?_, ?_⟩
  · unfold tilerRegions
    rw [length_flatMap_uniform _ _ (ceilDivNat W ts) ?hrow, List.length_range,
      Nat.mul_comm]
    case hrow =>
      intro ty hty
      rw [filterMap_eq_map_of_forall _ _
        (fun tx => (⟨tx * ts, ty * ts, min ts (W - tx * ts), min ts (H - ty * ts)⟩ :
          Region)) ?_]
      · rw [List.length_map, List.length_range]
      · intro tx htx
        rw [if_neg (hcond tx ty (List.mem_range.mp htx) (List.mem_range.mp hty))]
  · intro r hr
    rcases mem_tilerRegions.mp hr with ⟨tx, ty, htx, hty, hw0, hh0, rfl⟩
    refine ⟨tx, ty, rfl, rfl, ?_, ?_⟩
    · have h1 : tx * ts < W := mul_lt_of_lt_ceilDivNat hts htx
      have e : (tx + 1) * ts = tx * ts + ts := by ring
      show tx * ts + min ts (W - tx * ts) = min ((tx + 1) * ts) W
      rw [e]
      revert h1
      generalize tx * ts = A
      intro h1
      omega
    · have h2 : ty * ts < H := mul_lt_of_lt_ceilDivNat hts hty
      have e : (ty + 1) * ts = ty * ts + ts := by ring
      show ty * ts + min ts (H - ty * ts) = min ((ty + 1) * ts) H
      rw [e]
      revert h2
      generalize ty * ts = B
      intro h2
      omega
  · intro x y hx hy
    have hxq : x / ts * ts ≤ x := Nat.div_mul_le_self x ts
    have hyq : y / ts * ts ≤ y := Nat.div_mul_le_self y ts
    have hxe : x < x / ts * ts + ts := lt_div_mul_add hts
    have hye : y < y / ts * ts + ts := lt_div_mul_add hts
    refine ⟨⟨x / ts * ts, y / ts * ts, min ts (W - x / ts * ts),
      min ts (H - y / ts * ts)⟩, ⟨?_, ?_⟩, ?_⟩
    · exact mem_tilerRegions.mpr ⟨x / ts, y / ts, div_lt_ceilDivNat hts hx,
        div_lt_ceilDivNat hts hy,
        (by revert hxq; generalize x / ts * ts = A; intro hxq; omega),
        (by revert hyq; generalize y / ts * ts = B; intro hyq; omega), rfl⟩
    · refine ⟨hxq, ?_, hyq, ?_⟩
      · show x < x / ts * ts + min ts (W - x / ts * ts)
        revert hxq hxe
        generalize x / ts * ts = A
        intro hxq hxe
        omega
      · show y < y / ts * ts + min ts (H - y / ts * ts)
        revert hyq hye
        generalize y / ts * ts = B
        intro hyq hye
        omega
    · rintro r' ⟨hr', hcov'⟩
      rcases mem_tilerRegions.mp hr' with ⟨tx', ty', htx', hty', hw0, hh0, rfl⟩
      simp only [regionCovers] at hcov'
      obtain ⟨ha, hb, hc, hd⟩ := hcov'
      have hxd : x / ts = tx' := by
        refine Nat.div_eq_of_lt_le (by simpa using ha) ?_
        have e : (tx' + 1) * ts = tx' * ts + ts := by ring
        rw [e]
        revert ha hb
        generalize tx' * ts = A
        intro ha hb
        omega
      have hyd : y / ts = ty' := by
        refine Nat.div_eq_of_lt_le (by simpa using hc) ?_
        have e : (ty' + 1) * ts = ty' * ts + ts := by ring
        rw [e]
        revert hc hd
        generalize ty' * ts = B
        intro hc hd
        omega
      rw [hxd, hyd]
  · intro f lod ow oh mn vr hlodts
    subst hlodts
    unfold processLodLevelFast tilerRegions
    rw [List.map_flatMap]
    apply flatMap_congr_mem
    intro ty hty
    rw [List.map_filterMap]
    apply filterMap_congr_mem
    intro tx htx
    by_cases hc : min (tileSizeAtLod lod) (W - tx * tileSizeAtLod lod) = 0 ∨
        min (tileSizeAtLod lod) (H - ty * tileSizeAtLod lod) = 0
    · rw [if_pos hc, if_pos hc]
      rfl
    · rw [if_neg hc, if_neg hc]
      rfl
  · intro f mn vr hts512
    subst hts512
    unfold processFlatTiles tilerRegions
    rw [List.map_flatMap]
    apply flatMap_congr_mem
    intro ty hty
    rw [List.map_map]
    symm
    apply filterMap_eq_map_of_forall
    intro tx htx
    rw [if_neg (hcond tx ty (List.mem_range.mp htx) (List.mem_range.mp hty))]
    rfl

/-- Witness for C3 at `W = H = ts = 1`. -/
theorem c3_tiler_grid_coverage_witness :
    (0 < 1) ∧ (tilerRegions 1 1 1).length = ceilDivNat 1 1 * ceilDivNat 1 1 :=
  ⟨Nat.one_pos, (c3_tiler_grid_coverage 1 1 1 Nat.one_pos Nat.one_pos Nat.one_pos).1⟩

/-- The single tile of a 1 × 1 all-zero field at LOD 0 (used by witnesses). -/
def unitLodTile : LodTile :=
  { tx := 0, ty := 0, width := 1, height := 1, payload := [0],
    src_x := 0, src_y := 0, src_w := 1, src_h := 1, lod := 0 }

/-- `unitLodTile` is what LOD 0 of the 1 × 1 zero field produces. -/
theorem unitLodTile_mem :
    unitLodTile ∈ processLodLevelFast (fun _ _ => (0 : ℚ)) 0 1 1 1 1 0 1 := by
  rw [mem_processLodLevelFast]
  refine ⟨0, 0, by decide, by decide, by decide, by decide, ?_⟩
  have hr : List.range 1 = [0] := by decide
  unfold unitLodTile lodTileAt tilePayload
  simp only [tileSizeAtLod, TILE_SIZE, hr]
  norm_num [quantize]
  simp [hr]

/-- C5: every tile emitted at LOD `L` has stored width and height at most
`tileEdgeAtLevel(L) = max(T / 2^L, 32)`, with equality whenever the tile is
not in the rightmost grid column (for width) resp. the bottommost grid row
(for height). -/
theorem c5_tile_edge_bounds (f : ℕ → ℕ → ℚ) (lod lw lh ow oh : ℕ) (mn vr : ℚ)
    (t : LodTile) (ht : t ∈ processLodLevelFast f lod lw lh ow oh mn vr) :
    t.width ≤ tileSizeAtLod lod ∧ t.height ≤ tileSizeAtLod lod ∧
    (t.tx + 1 < ceilDivNat lw (tileSizeAtLod lod) → t.width = tileSizeAtLod lod) ∧
    (t.ty + 1 < ceilDivNat lh (tileSizeAtLod lod) → t.height = tileSizeAtLod lod) := by
  rcases mem_processLodLevelFast.mp ht with ⟨tx, ty, htx, hty, hw0, hh0, rfl⟩
  refine ⟨min_le_left _ _, min_le_left _ _, ?_, ?_⟩
  · intro h
    have h1 : (tx + 1) * tileSizeAtLod lod < lw :=
      mul_lt_of_lt_ceilDivNat (tileSizeAtLod_pos lod) h
    have e : (tx + 1) * tileSizeAtLod lod = tx * tileSizeAtLod lod + tileSizeAtLod lod := by
      ring
    rw [e] at h1
    show min (tileSizeAtLod lod) (lw - tx * tileSizeAtLod lod) = tileSizeAtLod lod
    revert h1
    generalize tx * tileSizeAtLod lod = A
    intro h1
    omega
  · intro h
    have h1 : (ty + 1) * tileSizeAtLod lod < lh :=
      mul_lt_of_lt_ceilDivNat (tileSizeAtLod_pos lod) h
    have e : (ty + 1) * tileSizeAtLod lod = ty * tileSizeAtLod lod + tileSizeAtLod lod := by
      ring
    rw [e] at h1
    show min (tileSizeAtLod lod) (lh - ty * tileSizeAtLod lod) = tileSizeAtLod lod
    revert h1
    generalize ty * tileSizeAtLod lod = A
    intro h1
    omega

/-- Witness for C5 on the 1 × 1 zero field at LOD 0. -/
theorem c5_tile_edge_bounds_witness :
    unitLodTile ∈ processLodLevelFast (fun _ _ => (0 : ℚ)) 0 1 1 1 1 0 1 ∧
    unitLodTile.width ≤ tileSizeAtLod 0 :=
  ⟨unitLodTile_mem,
    (c5_tile_edge_bounds (fun _ _ => 0) 0 1 1 1 1 0 1 unitLodTile unitLodTile_mem).1⟩

/-- C2 (amended): the recorded provenance of every LOD tile is
`src_x = tx · T` and `src_y = ty · T` — grid index times the BASE tile edge,
NOT scaled by `2^L` — while `src_w = min(T · 2^L, source_width − tx · T)`
and `src_h = min(T · 2^L, source_height − ty · T)` (computed as signed
values, with no further clipping). -/
theorem c2_provenance_recorded (f : ℕ → ℕ → ℚ) (lod lw lh ow oh : ℕ) (mn vr : ℚ)
    (t : LodTile) (ht : t ∈ processLodLevelFast f lod lw lh ow oh mn vr) :
    t.src_x = t.tx * TILE_SIZE ∧ t.src_y = t.ty * TILE_SIZE ∧
    t.src_w = min ((TILE_SIZE : ℤ) * 2 ^ lod) ((ow : ℤ) - (t.tx : ℤ) * TILE_SIZE) ∧
    t.src_h = min ((TILE_SIZE : ℤ) * 2 ^ lod) ((oh : ℤ) - (t.ty : ℤ) * TILE_SIZE) ∧
    t.lod = lod := by
  rcases mem_processLodLevelFast.mp ht with ⟨tx, ty, htx, hty, hw0, hh0, rfl⟩
  refine ⟨rfl, rfl, ?_, ?_, rfl⟩
  · show min ((TILE_SIZE : ℤ) * 2 ^ lod) ((ow : ℤ) - ((tx * TILE_SIZE : ℕ) : ℤ)) = _
    push_cast
    rfl
  · show min ((TILE_SIZE : ℤ) * 2 ^ lod) ((oh : ℤ) - ((ty * TILE_SIZE : ℕ) : ℤ)) = _
    push_cast
    rfl

/-- Witness for C2 on the 1 × 1 zero field at LOD 0. -/
theorem c2_provenance_recorded_witness :
    unitLodTile ∈ processLodLevelFast (fun _ _ => (0 : ℚ)) 0 1 1 1 1 0 1 ∧
    unitLodTile.src_x = unitLodTile.tx * TILE_SIZE :=
  ⟨unitLodTile_mem,
    (c2_provenance_recorded (fun _ _ => 0) 0 1 1 1 1 0 1 unitLodTile unitLodTile_mem).1⟩

/-- C2 counterexample: at LOD 1 (base edge 512, source 1024 × 2, LOD image
512 × 1) the tile at grid (1, 0) records `src_x = 512 = tx · T`, not the
claimed `tx · T · 2^L = 1024`; and the recorded `src_w` is
`min(1024, 1024 − 512) = 512`, not `min(1024, 1024 − 1024) = 0` as the
claim's `sourceX` would force. -/
theorem c2_counterexample :
    ((processLodLevelFast (fun _ _ => (0 : ℚ)) 1 512 1 1024 2 0 1).map
      fun t => (t.tx, t.ty, t.src_x, t.src_w)) =
        [(0, 0, 0, 1024), (1, 0, 512, 512)] ∧
    srcXClaim 1 1 = 1024 ∧ (512 : ℕ) ≠ srcXClaim 1 1 := by
  refine ⟨?_, by decide, by decide⟩
  have h1 : List.range 1 = [0] := by decide
  have h2 : List.range 2 = [0, 1] := by decide
  have e1 : ceilDivNat 1 (tileSizeAtLod 1) = 1 := by decide
  have e2 : ceilDivNat 512 (tileSizeAtLod 1) = 2 := by decide
  unfold processLodLevelFast
  rw [e1, e2, h1, h2]
  simp only [List.flatMap_cons, List.flatMap_nil, List.filterMap_cons,
    List.filterMap_nil, List.append_nil]
  norm_num [lodTileAt, tileSizeAtLod, TILE_SIZE]

/-- C8: the flat (legacy) tile set cut from the base field is
content-identical to the LOD level 0 tile set: same grid keys, stored
sizes, payloads and `src_x`/`src_y`, differing only in file placement. -/
theorem c8_flat_tiles_equal_lod0 (f : ℕ → ℕ → ℚ) (W H : ℕ) (mn vr : ℚ) :
    (processLodLevelFast f 0 W H W H mn vr).map lodToFlat =
      processFlatTiles f (ceilDivNat W TILE_SIZE) (ceilDivNat H TILE_SIZE) W H mn vr := by
  have hts : tileSizeAtLod 0 = TILE_SIZE := by decide
  have hT : 0 < TILE_SIZE := by norm_num [TILE_SIZE]
  unfold processLodLevelFast processFlatTiles
  rw [List.map_flatMap]
  simp only [hts]
  apply flatMap_congr_mem
  intro ty hty
  have hty' : ty * TILE_SIZE < H :=
    mul_lt_of_lt_ceilDivNat hT (List.mem_range.mp hty)
  have hrow : (List.range (ceilDivNat W TILE_SIZE)).filterMap
      (fun tx => if min TILE_SIZE (W - tx * TILE_SIZE) = 0 ∨
          min TILE_SIZE (H - ty * TILE_SIZE) = 0 then none
        else some (lodTileAt f 0 W H W H mn vr tx ty)) =
      (List.range (ceilDivNat W TILE_SIZE)).map
        (fun tx => lodTileAt f 0 W H W H mn vr tx ty) := by
    apply filterMap_eq_map_of_forall
    intro tx htx
    have htx' : tx * TILE_SIZE < W :=
      mul_lt_of_lt_ceilDivNat hT (List.mem_range.mp htx)
    rw [if_neg ?_]
    push_neg
    constructor
    · revert htx'
      generalize tx * TILE_SIZE = A
      intro htx'
      omega
    · revert hty'
      generalize ty * TILE_SIZE = B
      intro hty'
      omega
  rw [hrow, List.map_map]
  apply List.map_congr_left
  intro tx htx
  show lodToFlat (lodTileAt f 0 W H W H mn vr tx ty) = flatTileAt f W H mn vr tx ty
  unfold lodToFlat lodTileAt flatTileAt
  simp only [hts]

/-- C1 (amended): the 16-bit code stored in a tile for a sample `v` is
`⌊clamp((v − min) / (max − min), 0, 1) · 65535⌋` — truncation toward zero
(`astype(np.uint16)`), not rounding to the nearest integer. -/
theorem c1_stored_code (mn mx : ℚ) (hlt : mn < mx) :
    (∀ (f : ℕ → ℕ → ℚ) (tiles_x tiles_y W H : ℕ),
      ∀ t ∈ processFlatTiles f tiles_x tiles_y W H mn (mx - mn),
      ∀ r c, r < t.height → c < t.width →
        t.payload[r * t.width + c]? =
          some ((⌊min (max ((f (t.src_x + c) (t.src_y + r) - mn) / (mx - mn)) 0) 1
            * 65535⌋).toNat)) ∧
    (∀ (f : ℕ → ℕ → ℚ) (lod lw lh ow oh : ℕ),
      ∀ t ∈ processLodLevelFast f lod lw lh ow oh mn (mx - mn),
      ∀ r c, r < t.height → c < t.width →
        t.payload[r * t.width + c]? =
          some ((⌊min (max ((f (t.tx * tileSizeAtLod lod + c)
              (t.ty * tileSizeAtLod lod + r) - mn) / (mx - mn)) 0) 1 * 65535⌋).toNat)) := by
  constructor
  · intro f tiles_x tiles_y W H t ht r c hr hc
    rcases mem_processFlatTiles.mp ht with ⟨tx, ty, htx, hty, rfl⟩
    simp only [flatTileAt] at hr hc ⊢
    rw [tilePayload_getElem f _ _ _ _ _ _ r c hr hc, quantize_eq_floor_clamp]
  · intro f lod lw lh ow oh t ht r c hr hc
    rcases mem_processLodLevelFast.mp ht with ⟨tx, ty, htx, hty, hw0, hh0, rfl⟩
    simp only [lodTileAt] at hr hc ⊢
    rw [tilePayload_getElem f _ _ _ _ _ _ r c hr hc, quantize_eq_floor_clamp]

/-- The 3 × 1 field (0, 1/131070, 1) used by the C1 counterexample. -/
def exF : ℕ → ℕ → ℚ := fun x _ => if x = 0 then 0 else if x = 1 then 1 / 131070 else 1

/-- C1 counterexample: on `exF` with global range {0, 1} the single flat
tile stores codes (0, 0, 65535) — the middle sample's scaled value 1/2 is
truncated to 0 — whereas the claim's `round(0.5) = 1`. -/
theorem c1_counterexample :
    ((processFlatTiles exF 1 1 3 1 0 1).map fun t => t.payload) = [[0, 0, 65535]] ∧
    quantizeClaim 0 1 (1 / 131070) = 1 := by
  constructor
  · have h1 : List.range 1 = [0] := by decide
    have h3 : List.range 3 = [0, 1, 2] := by decide
    unfold processFlatTiles flatTileAt tilePayload
    norm_num [h1, h3, exF, quantize, TILE_SIZE, min_def, max_def]
    decide
  · norm_num [quantizeClaim, min_def, max_def, round_eq]

/-- The single tile of the 1 × 1 zero field in the flat tiler (witnesses). -/
def unitFlatTile : FlatTile :=
  { tx := 0, ty := 0, width := 1, height := 1, payload := [0],
    src_x := 0, src_y := 0 }

/-- `unitFlatTile` is what the flat tiler produces on the 1 × 1 zero field
with range {0, 1}. -/
theorem unitFlatTile_mem :
    unitFlatTile ∈ processFlatTiles (fun _ _ => (0 : ℚ)) 1 1 1 1 0 (1 - 0) := by
  rw [mem_processFlatTiles]
  refine ⟨0, 0, Nat.one_pos, Nat.one_pos, ?_⟩
  have hr : List.range 1 = [0] := by decide
  unfold unitFlatTile flatTileAt tilePayload
  simp only [TILE_SIZE, hr]
  norm_num [quantize]
  simp [hr]

/-- Witness for C1 on the 1 × 1 zero field with range {0, 1}. -/
theorem c1_stored_code_witness :
    ((0 : ℚ) < 1) ∧
    unitFlatTile.payload[0 * unitFlatTile.width + 0]? =
      some ((⌊min (max (((fun _ _ => (0 : ℚ)) (unitFlatTile.src_x + 0)
        (unitFlatTile.src_y + 0) - 0) / (1 - 0)) 0) 1 * 65535⌋).toNat) :=
  ⟨by norm_num, (c1_stored_code 0 1 (by norm_num)).1 (fun _ _ => 0) 1 1 1 1
    unitFlatTile unitFlatTile_mem 0 0 (by decide) (by decide)⟩

/-- C6 (amended): for every sample `v` WITHIN the global range
(`min ≤ v ≤ max`), decoding the stored code via
`min + (code / 65535) · (max − min)` reconstructs `v` to within one
quantization step `(max − min) / 65535`.  (Samples outside the range —
possible in LOD fields through resampling overshoot — are clamped and can
err by arbitrarily more.) -/
theorem c6_roundtrip_within_range (mn mx v : ℚ) (h1 : mn ≤ mx) (h2 : mn ≤ v)
    (h3 : v ≤ mx) :
    |v - (mn + ((quantize mn (valueRange mn mx) v : ℚ) / 65535) * (mx - mn))| ≤
      (mx - mn) / 65535 := by
  rcases eq_or_lt_of_le h1 with heq | hlt
  · have hv : v = mn := le_antisymm (heq ▸ h3) h2
    subst hv
    have hrange : valueRange v mx = 1 := by
      unfold valueRange
      rw [if_neg (by rw [← heq]; exact lt_irrefl v)]
    rw [hrange, quantize_zero_of_le le_rfl, ← heq]
    norm_num
  · have hrange : valueRange mn mx = mx - mn := by
      unfold valueRange
      rw [if_pos hlt]
    have hR0 : (0 : ℚ) < mx - mn := by linarith
    have hn0 : 0 ≤ (v - mn) / (mx - mn) := div_nonneg (by linarith) (le_of_lt hR0)
    have hn1 : (v - mn) / (mx - mn) ≤ 1 := by
      rw [div_le_one hR0]
      linarith
    have hclip : min (max ((v - mn) / valueRange mn mx * 65535) 0) 65535 =
        (v - mn) / (mx - mn) * 65535 := by
      rw [hrange, max_eq_left (by positivity), min_eq_left (by nlinarith)]
    have hfl0 : 0 ≤ ⌊(v - mn) / (mx - mn) * 65535⌋ :=
      Int.floor_nonneg.mpr (by positivity)
    have hq : ((quantize mn (valueRange mn mx) v : ℕ) : ℚ) =
        ((⌊(v - mn) / (mx - mn) * 65535⌋ : ℤ) : ℚ) := by
      unfold quantize
      rw [hclip]
      exact_mod_cast congrArg (fun z : ℤ => (z : ℚ)) (Int.toNat_of_nonneg hfl0)
    have hz1 : ((⌊(v - mn) / (mx - mn) * 65535⌋ : ℤ) : ℚ) ≤
        (v - mn) / (mx - mn) * 65535 := Int.floor_le _
    have hz2 : (v - mn) / (mx - mn) * 65535 <
        ((⌊(v - mn) / (mx - mn) * 65535⌋ : ℤ) : ℚ) + 1 := Int.lt_floor_add_one _
    have hne : mx - mn ≠ 0 := ne_of_gt hR0
    rw [hq]
    set z : ℚ := ((⌊(v - mn) / (mx - mn) * 65535⌋ : ℤ) : ℚ) with hzdef
    have key : v - (mn + z / 65535 * (mx - mn)) =
        ((v - mn) / (mx - mn) - z / 65535) * (mx - mn) := by
      rw [sub_mul, div_mul_cancel₀ _ hne]
      ring
    rw [key]
    have hd0 : 0 ≤ (v - mn) / (mx - mn) - z / 65535 := by
      have hzn : z / 65535 ≤ (v - mn) / (mx - mn) := by
        rw [div_le_iff (by norm_num : (0 : ℚ) < 65535)]
        linarith
      linarith
    have hd1 : (v - mn) / (mx - mn) - z / 65535 ≤ 1 / 65535 := by
      have hlt2 : (v - mn) / (mx - mn) < (z + 1) / 65535 := by
        rw [lt_div_iff (by norm_num : (0 : ℚ) < 65535)]
        linarith
      have e : (z + 1) / 65535 = z / 65535 + 1 / 65535 := by ring
      rw [e] at hlt2
      linarith
    rw [abs_of_nonneg (mul_nonneg hd0 (le_of_lt hR0))]
    calc ((v - mn) / (mx - mn) - z / 65535) * (mx - mn)
        ≤ 1 / 65535 * (mx - mn) := mul_le_mul_of_nonneg_right hd1 (le_of_lt hR0)
      _ = (mx - mn) / 65535 := by ring

/-- C6 counterexample: with range {0, 1/2} a sample `v = 1` (outside the
range, as resampling overshoot can produce) is clamped to code 65535 and
decodes to 1/2: the error 1/2 far exceeds `(max − min) / 65535 = 1/131070`,
refuting the claim as stated for arbitrary samples. -/
theorem c6_counterexample :
    ¬(|(1 : ℚ) - (0 + ((quantize 0 (valueRange 0 (1 / 2)) 1 : ℚ) / 65535) *
        ((1 : ℚ) / 2 - 0))| ≤ ((1 : ℚ) / 2 - 0) / 65535) := by
  have hq : quantize 0 (valueRange 0 (1 / 2)) 1 = 65535 := by
    norm_num [quantize, valueRange, min_def, max_def]
    decide
  rw [hq]
  rw [abs_of_nonneg (by norm_num)]
  norm_num

/-- Witness for C6 at `mn = 0`, `mx = 1`, `v = 1/2`. -/
theorem c6_roundtrip_witness :
    ((0 : ℚ) ≤ 1) ∧
    |(1 / 2 : ℚ) - (0 + ((quantize 0 (valueRange 0 1) (1 / 2) : ℚ) / 65535) *
      ((1 : ℚ) - 0))| ≤ ((1 : ℚ) - 0) / 65535 :=
  ⟨by norm_num,
    c6_roundtrip_within_range 0 1 (1 / 2) (by norm_num) (by norm_num) (by norm_num)⟩

/-- C7: on a constant field the run records `min_value = max_value`, the
divisor is replaced by 1 (no division by zero), and every stored tile code
is 0 — for the flat tiles, LOD 0, and every deeper LOD whose (externally
resized) field does not exceed the constant, as an 8-bit truncation of a
constant image does not. -/
theorem c7_degenerate_field (c : ℚ) (W H : ℕ) (resized : ℕ → ℕ → ℕ → Fin 256)
    (g : Bool) (hW : 0 < W) (hH : 0 < H)
    (hres : ∀ lod x y, lodImageField (resized lod) x y ≤ c) :
    (processHeightmap (fun _ _ => c) W H resized g).1.min_value =
      (processHeightmap (fun _ _ => c) W H resized g).1.max_value ∧
    valueRange (fieldMin (fun _ _ => c) W H) (fieldMax (fun _ _ => c) W H) = 1 ∧
    (∀ t ∈ (processHeightmap (fun _ _ => c) W H resized g).1.tiles,
      ∀ code ∈ t.payload, code = 0) ∧
    (∀ p ∈ (processHeightmap (fun _ _ => c) W H resized g).1.lod_tiles,
      ∀ t ∈ p.2, ∀ code ∈ t.payload, code = 0) := by
  have hmin : fieldMin (fun _ _ => c) W H = c := fieldMin_const c W H
  have hmax : fieldMax (fun _ _ => c) W H = c := fieldMax_const c W H
  have hvr : valueRange (fieldMin (fun _ _ => c) W H) (fieldMax (fun _ _ => c) W H) = 1 := by
    rw [hmin, hmax]
    unfold valueRange
    rw [if_neg (lt_irrefl c)]
  refine ⟨?_, hvr, ?_, ?_⟩
  · show fieldMin (fun _ _ => c) W H = fieldMax (fun _ _ => c) W H
    rw [hmin, hmax]
  · intro t ht code hcode
    have ht' : t ∈ processFlatTiles (fun _ _ => c) (ceilDivNat W TILE_SIZE)
        (ceilDivNat H TILE_SIZE) W H (fieldMin (fun _ _ => c) W H)
        (valueRange (fieldMin (fun _ _ => c) W H) (fieldMax (fun _ _ => c) W H)) := ht
    rw [hvr, hmin] at ht'
    rcases mem_processFlatTiles.mp ht' with ⟨tx, ty, _, _, rfl⟩
    simp only [flatTileAt] at hcode
    rcases mem_tilePayload hcode with ⟨x, y, rfl⟩
    exact quantize_zero_of_le le_rfl
  · intro p hp t ht code hcode
    have hp' : p ∈ (List.range (if g then MAX_LOD_LEVELS else 1)).map (fun lod =>
        (lod, processLodLevelFast
          (if lod = 0 then (fun _ _ => c) else lodImageField (resized lod)) lod
          (if lod = 0 then W else max (W / 2 ^ lod) 1)
          (if lod = 0 then H else max (H / 2 ^ lod) 1)
          W H (fieldMin (fun _ _ => c) W H)
          (valueRange (fieldMin (fun _ _ => c) W H)
            (fieldMax (fun _ _ => c) W H)))) := hp
    rcases List.mem_map.mp hp' with ⟨lod, hlod, rfl⟩
    rcases mem_processLodLevelFast.mp ht with ⟨tx, ty, _, _, _, _, rfl⟩
    simp only [lodTileAt] at hcode
    rcases mem_tilePayload hcode with ⟨x, y, rfl⟩
    rw [hvr, hmin]
    by_cases h0 : lod = 0
    · rw [if_pos h0]
      exact quantize_zero_of_le le_rfl
    · rw [if_neg h0]
      exact quantize_zero_of_le (hres lod x y)

/-- Witness for C7 on the 1 × 1 zero field. -/
theorem c7_degenerate_field_witness :
    (0 < 1) ∧
    (processHeightmap (fun _ _ => (0 : ℚ)) 1 1 (fun _ _ _ => 0) false).1.min_value =
      (processHeightmap (fun _ _ => (0 : ℚ)) 1 1 (fun _ _ _ => 0) false).1.max_value := by
  refine ⟨Nat.one_pos, ?_⟩
  refine (c7_degenerate_field 0 1 1 (fun _ _ _ => 0) false Nat.one_pos Nat.one_pos ?_).1
  intro lod x y
  simp [lodImageField]

end Heightmap
